import Mathlib

/-! A shallow embedding of `util.go` of git-hooks.

The helper functions of `util.go` are translated into pure Lean functions.

* A Go `string` / `[]byte` is a sequence of bytes, modelled as `List Nat`.
* A Go `(value, error)` result is a pair `value × Option GoError`, where
  `none` is the `nil` error; a run-time panic is the outcome `Run.panics`.
* Calls into the operating system (process execution, `os.Getwd`, `os.Stat`,
  `os.Lstat`, `os.Readlink`, `exec.LookPath`, faults of file operations) and
  the gzip and tar decoders are fields of an explicit record `Host`, so every
  theorem quantifies over all behaviours of the host.
* The files that `extract` and `installBinary` read and write live in an
  explicit file-system state `FS` that the functions take and return.
* Pure standard-library functions used by the source (`strings.Join`,
  `strings.Split`, `bytes.Trim`, `filepath.Clean`, `filepath.Abs`,
  `os.IsNotExist`) are modelled after the Go standard library (Unix build).
-/

namespace GitHooks

/-- A Go string or byte slice: a sequence of bytes. -/
abbrev GoString := List Nat

/-- Bytes of an ASCII literal, used to write Go string literals readably. -/
def str (s : String) : GoString := s.toList.map Char.toNat

/-- Go error values, as far as the standard library distinguishes them here.
`Errno n` is a `syscall.Errno`; `ErrNotExist`, `ErrExist`, `ErrPermission` are
the sentinel errors of package `os`; `PathError`, `LinkError`, `SyscallError`
wrap an underlying error; `ExitError` is the non-zero exit of a child process;
`ExecError` is `exec.Error` (the program could not be found or started). -/
inductive GoError where
  | Errno (n : Nat)
  | ErrNotExist
  | ErrExist
  | ErrPermission
  | PathError (op : String) (path : GoString) (err : GoError)
  | LinkError (op : String) (old new : GoString) (err : GoError)
  | SyscallError (call : String) (err : GoError)
  | ExitError (code : Nat)
  | ExecError (name : GoString) (err : GoError)
  | Other (msg : String)
  deriving DecidableEq

/-- Outcome of running a Go function: it returns a value or the goroutine
panics (run-time error such as an index out of range). -/
inductive Run (α : Type) where
  | returns (v : α)
  | panics
  deriving DecidableEq

/-- The `exec.Cmd` fields that `util.go` determines: `Args`, the command name
followed by the arguments as `exec.Command` builds it, and `Dir`. The field
`Cmd.Path`, which `exec.Command` fills with the result of `exec.LookPath` for
`Args[0]`, depends on the host and is not a field here: resolving the program
is part of what `Host.Output` answers for the command. -/
structure Cmd where
  Args : List GoString
  Dir : GoString
  deriving DecidableEq

/-- File mode bits (`os.FileMode`, a `uint32`). -/
abbrev FileMode := Nat

/-- One entry of a tar archive as the reader delivers it: the type flag of
its header, the bytes of its body, and the error (if any) with which reading
the body ends instead of the end of the entry. -/
structure TarEntry where
  Typeflag : Nat
  body : GoString
  readErr : Option GoError
  deriving DecidableEq

/-- What a `tar.Reader` on top of a `gzip.Reader` delivers: the entries that
successive calls of `Next` return, and how the call after the last entry ends:
`none` is `io.EOF` (clean end of archive), `some e` a decoding or read error. -/
structure TarStream where
  entries : List TarEntry
  final : Option GoError
  deriving DecidableEq

/-- Everything outside `util.go` that its functions consult: one field per
operating-system or decoder call, giving the Go result of the call. A Go result pair keeps both components, as Go does (for example
`cmd.Output` hands back the captured output next to an `ExitError`). -/
structure Host where
  /-- Value of `os.Args[0]`, the invocation reference. -/
  Args0 : GoString
  /-- Result of `os.Getwd()`. -/
  Getwd : GoString × Option GoError
  /-- Result of `cmd.Output()`: captured standard output and error. -/
  Output : Cmd → GoString × Option GoError
  /-- Result of `os.Stat(path)`: mode of the file (links followed). -/
  Stat : GoString → FileMode × Option GoError
  /-- Result of `os.Lstat(path)`: mode of the file (links not followed). -/
  Lstat : GoString → FileMode × Option GoError
  /-- Result of `os.Readlink(path)`: the stored target of a symlink. -/
  Readlink : GoString → GoString × Option GoError
  /-- Result of `exec.LookPath(file)`. -/
  LookPath : GoString → GoString × Option GoError
  /-- Result of `os.TempDir()`. -/
  TempDir : GoString
  /-- Path that `ioutil.TempFile(dir, pattern)` picks for the new file, or the
  error that keeps it from creating one. -/
  TempName : GoString → GoString → GoString × Option GoError
  /-- Fault of `os.Create(name)` (permission denied, text file busy, ...). -/
  CreateErr : GoString → Option GoError
  /-- Fault of `Chmod` on the file opened under this name. -/
  ChmodErr : GoString → Option GoError
  /-- Fault of `os.Open(name)` other than the file being absent. -/
  OpenErr : GoString → Option GoError
  /-- Fault of reading the file opened under this name: after that many
  bytes the read fails with the error. -/
  ReadErr : GoString → Option (Nat × GoError)
  /-- Fault of writing the byte at this offset of the file opened under this
  name (disk full, I/O error). -/
  WriteErr : GoString → Nat → Option GoError
  /-- Process umask applied to the permissions of newly created files. -/
  Umask : Nat
  /-- The gzip and tar decoders: given the bytes a file reader delivers and
  the error it ends with (`none` for end of file), either the error of
  `gzip.NewReader` or the entries the tar reader yields. -/
  TarGz : GoString → Option GoError → Except GoError TarStream

end GitHooks

namespace strings
open GitHooks

/-- Go `strings.Join(elems, sep)`: the elements with `sep` between them. -/
def Join : List GoString → GoString → GoString
  | [], _ => []
  | [a], _ => a
  | a :: b :: rest, sep => a ++ sep ++ Join (b :: rest) sep

/-- Loop of Go `genSplit` for a non-empty separator: `cur` is the piece being
collected, `rest` the unread input; at each leftmost occurrence of `sep` the
piece is closed and the separator skipped. `fuel` bounds the iterations. -/
def splitLoop (sep : GoString) : Nat → GoString → GoString → List GoString
  | 0, cur, rest => [cur ++ rest]
  | fuel + 1, cur, rest =>
    match rest with
    | [] => [cur]
    | x :: xs =>
      if sep.isPrefixOf (x :: xs) then
        cur :: splitLoop sep fuel [] ((x :: xs).drop sep.length)
      else splitLoop sep fuel (cur ++ [x]) xs

/-- Go `strings.Split(s, sep)`: the substrings of `s` between the
non-overlapping occurrences of `sep`, found from the left; one more piece than
occurrences. With an empty separator Go splits after each UTF-8 sequence,
modelled here after each byte. -/
def Split (s : GoString) (sep : GoString) : List GoString :=
  if sep = [] then s.map (fun b => [b])
  else splitLoop sep (s.length + 1) [] s

end strings

namespace bytes
open GitHooks

/-- Go `bytes.Trim(s, cutset)` for a cutset of ASCII bytes: all leading and
all trailing bytes contained in `cutset` are removed. -/
def Trim (s : GoString) (cutset : GoString) : GoString :=
  ((s.dropWhile (fun b => decide (b ∈ cutset))).reverse.dropWhile
    (fun b => decide (b ∈ cutset))).reverse

end bytes

namespace exec
open GitHooks

/-- Go `exec.Command(name, arg...)`: `Args` is the name followed by `arg`;
`Dir` is left empty. -/
def Command (name : GoString) (arg : List GoString) : Cmd :=
  { Args := name :: arg, Dir := [] }

end exec

namespace os
open GitHooks

/-- Go `os.ModeSymlink`, bit 27 of a `FileMode`. -/
def ModeSymlink : FileMode := 1 <<< 27

/-- Go `syscall.ENOENT`. -/
def ENOENT : Nat := 2

/-- Go `os.underlyingError`: one level of `PathError`, `LinkError` or
`SyscallError` is removed. -/
def underlyingError : GoError → GoError
  | .PathError _ _ err => err
  | .LinkError _ _ _ err => err
  | .SyscallError _ err => err
  | err => err

/-- Go `os.IsNotExist(err)`: the underlying error is `ErrNotExist` or the
errno `ENOENT`. -/
def IsNotExist (err : GoError) : Bool :=
  match underlyingError err with
  | .ErrNotExist => true
  | .Errno n => n == ENOENT
  | _ => false

end os

namespace filepath
open GitHooks

/-- Go `filepath.IsAbs` (Unix): the path starts with a slash. -/
def IsAbs (path : GoString) : Bool :=
  match path with
  | 47 :: _ => true
  | _ => false

/-- Inner loop of the `..` case of `Clean`: from write index `w`, step back
while `w > dotdot` and the byte at `w` is not a separator. -/
def backtrack (buf : GoString) (dotdot : Nat) : Nat → Nat
  | 0 => 0
  | w + 1 => if dotdot < w + 1 ∧ buf.getD (w + 1) 0 ≠ 47 then backtrack buf dotdot w else w + 1

/-- Main loop of Go `filepath.Clean` (Unix). `rest` is the unread input
`path[r:]`, `out` the bytes written so far (`out.w = out.length`), `dotdot` the
index where `..` must stop. Each iteration consumes at least one byte of
`rest`; `fuel` bounds the number of iterations. -/
def cleanLoop (rooted : Bool) : Nat → GoString → GoString → Nat → GoString
  | 0, _, out, _ => out
  | fuel + 1, rest, out, dotdot =>
    match rest with
    | [] => out
    | c :: t =>
      if c = 47 then
        cleanLoop rooted fuel t out dotdot
      else if c = 46 ∧ (t = [] ∨ t.head? = some 47) then
        cleanLoop rooted fuel t out dotdot
      else if c = 46 ∧ t.head? = some 46 ∧ (t.tail = [] ∨ t.tail.head? = some 47) then
        if dotdot < out.length then
          cleanLoop rooted fuel t.tail (out.take (backtrack out dotdot (out.length - 1))) dotdot
        else if !rooted then
          let out1 := (if 0 < out.length then out ++ [47] else out) ++ [46, 46]
          cleanLoop rooted fuel t.tail out1 out1.length
        else cleanLoop rooted fuel t.tail out dotdot
      else
        let out1 :=
          if (rooted ∧ out.length ≠ 1) ∨ (¬ rooted ∧ out.length ≠ 0) then out ++ [47] else out
        cleanLoop rooted fuel ((c :: t).dropWhile (fun b => b != 47))
          (out1 ++ (c :: t).takeWhile (fun b => b != 47)) dotdot

/-- Go `filepath.Clean` (Unix): the shortest path name equivalent to `path`
by purely lexical processing; the empty path becomes `"."`. -/
def Clean (path : GoString) : GoString :=
  if path = [] then [46]
  else
    let rooted := IsAbs path
    let out :=
      if rooted then cleanLoop true (path.length + 1) path.tail [47] 1
      else cleanLoop false (path.length + 1) path [] 0
    if out = [] then [46] else out

/-- Go `filepath.Join` (Unix): leading empty elements are skipped, the
rest is joined with slashes and cleaned; all elements empty gives `""`. -/
def Join : List GoString → GoString
  | [] => []
  | e :: rest => if e ≠ [] then Clean (strings.Join (e :: rest) [47]) else Join rest

/-- Go `filepath.Abs` (Unix): an absolute path is cleaned; any other path is
joined to the working directory, and when `os.Getwd` fails the result is the
empty string together with that error. -/
def Abs (h : Host) (path : GoString) : GoString × Option GoError :=
  if IsAbs path then (Clean path, none)
  else
    match h.Getwd with
    | (_, some err) => ([], some err)
    | (wd, none) => (Join [wd, path], none)

end filepath

namespace GitHooks

/-- The command `gitExecWithDir` builds (lines 38 to 41): the arguments are
joined with single spaces and split again at every space, the command name
is `git`, and the working directory is `dir`. -/
def gitCommand (dir : GoString) (args : List GoString) : Cmd :=
  let args := strings.Split (strings.Join args (str " ")) (str " ")
  let cmd := exec.Command (str "git") args
  { cmd with Dir := dir }

/-- Source `gitExecWithDir`: run the command; on success the output trimmed
of newlines, otherwise the empty string and the error. -/
def gitExecWithDir (h : Host) (dir : GoString) (args : List GoString) :
    GoString × Option GoError :=
  match h.Output (gitCommand dir args) with
  | (out, none) => (bytes.Trim out (str "\n"), none)
  | (_, some err) => ([], some err)

/-- Source `gitExec`: run git in the current working directory. -/
def gitExec (h : Host) (args : List GoString) : GoString × Option GoError :=
  match h.Getwd with
  | (_, some err) => ([], some err)
  | (wd, none) => gitExecWithDir h wd args

/-- Source `getGitRepoRoot`. -/
def getGitRepoRoot (h : Host) : GoString × Option GoError :=
  gitExec h [str "rev-parse --show-toplevel"]

/-- Source `getGitDirPath`. -/
def getGitDirPath (h : Host) : GoString × Option GoError :=
  gitExec h [str "rev-parse --git-dir"]

/-- Source `exists`: `(true, nil)` when `os.Stat` succeeds, `(false, nil)` when
it fails with an error that `os.IsNotExist` accepts, else `(false, err)`. -/
def exists_ (h : Host) (path : GoString) : Bool × Option GoError :=
  match h.Stat path with
  | (_, none) => (true, none)
  | (_, some err) => if os.IsNotExist err then (false, none) else (false, some err)

/-- Source `absExePath`. The index expression `name[0]` panics on the empty
string. In the relative branch `name` is overwritten by the result of
`filepath.Abs` before the fallback `filepath.Clean(name)` reads it, and `err`
keeps its value, exactly as the assignments of the source do. -/
def absExePath (h : Host) (exe : GoString) : Run (GoString × Option GoError) :=
  let name := exe
  match name[0]? with
  | none => .panics
  | some c =>
    let (name, err) :=
      if c = 46 then
        let (name, err) := filepath.Abs h name
        if err ≠ none then (filepath.Clean name, err) else (name, err)
      else h.LookPath (filepath.Clean name)
    if err ≠ none then .returns (name, err)
    else
      let (fileinfo, err) := h.Lstat name
      if err ≠ none then .returns (name, err)
      else if fileinfo &&& os.ModeSymlink ≠ 0 then .returns (h.Readlink name)
      else .returns (name, err)

/-! ### File system state

The functions `extract` and `installBinary` change files. The file system is
an explicit state: a list of files, each with the path names that resolve to
it (hard links, symlinks and spellings of the same path all count), its bytes
and its permission bits. A path resolves to the first file that lists it. -/

/-- A file: the paths that resolve to it, its content, its permission bits. -/
structure FileNode where
  names : List GoString
  data : GoString
  perm : Nat
  deriving DecidableEq

/-- The file system: its files; the index in the list identifies a file. -/
structure FS where
  files : List FileNode
  deriving DecidableEq

/-- An open file (`*os.File`): the name it was opened under and the file it
refers to. -/
structure File where
  name : GoString
  ino : Nat
  deriving DecidableEq

/-- Index of the first file of the list that has `p` among its names. -/
def lookupIn (p : GoString) : List FileNode → Option Nat
  | [] => none
  | n :: rest => if p ∈ n.names then some 0 else (lookupIn p rest).map (· + 1)

/-- Apply `f` to the file with index `i`. -/
def modifyAt (f : FileNode → FileNode) : Nat → List FileNode → List FileNode
  | _, [] => []
  | 0, n :: rest => f n :: rest
  | i + 1, n :: rest => n :: modifyAt f i rest

/-- Path resolution: the file a path names, if any. -/
def FS.lookup (fs : FS) (p : GoString) : Option Nat := lookupIn p fs.files

/-- The file a path names, with content and permissions. -/
def FS.fileAt (fs : FS) (p : GoString) : Option FileNode :=
  (fs.lookup p).bind (fun i => fs.files[i]?)

/-- Content of the file with index `i` (empty when there is none). -/
def FS.dataOf (fs : FS) (i : Nat) : GoString :=
  match fs.files[i]? with
  | some n => n.data
  | none => []

/-- A new empty file under the single name `p`. -/
def FS.addFile (fs : FS) (p : GoString) (perm : Nat) : FS :=
  { files := fs.files ++ [{ names := [p], data := [], perm := perm }] }

/-- Truncate the file with index `i` to length zero. -/
def FS.truncate (fs : FS) (i : Nat) : FS :=
  { files := modifyAt (fun n => { n with data := [] }) i fs.files }

/-- Set the permission bits of the file with index `i`. -/
def FS.setPerm (fs : FS) (i : Nat) (perm : Nat) : FS :=
  { files := modifyAt (fun n => { n with perm := perm }) i fs.files }

/-- Append bytes to the file with index `i`. -/
def FS.appendData (fs : FS) (i : Nat) (w : GoString) : FS :=
  { files := modifyAt (fun n => { n with data := n.data ++ w }) i fs.files }

/-- Permission bits `perm` with the bits of `umask` cleared (`perm &^ umask`). -/
def applyUmask (perm umask : Nat) : Nat := perm - (perm &&& umask)

end GitHooks

namespace tar

/-- Go `tar.TypeDir`, the type flag `'5'` of a directory entry. -/
def TypeDir : Nat := 53

end tar

namespace ioutil
open GitHooks

/-- Go `ioutil.TempFile(dir, pattern)`: creates a new empty file with mode
0600 under a name that did not exist (the file is opened with `O_EXCL`) and
returns it opened for writing. The name comes from the host; when the host
cannot offer an unused name the call fails. -/
def TempFile (h : Host) (fs : FS) (dir pattern : GoString) : FS × File × Option GoError :=
  match h.TempName dir pattern with
  | (_, some err) => (fs, ⟨[], 0⟩, some err)
  | (name, none) =>
    match fs.lookup name with
    | some _ => (fs, ⟨[], 0⟩, some (.PathError "open" name .ErrExist))
    | none => (fs.addFile name (applyUmask 0o600 h.Umask), ⟨name, fs.files.length⟩, none)

end ioutil

namespace os
open GitHooks

/-- Go `os.Open(name)`: the file opened for reading; a path that names no
file gives `ENOENT`. -/
def Open (h : Host) (fs : FS) (name : GoString) : File × Option GoError :=
  match h.OpenErr name with
  | some err => (⟨[], 0⟩, some err)
  | none =>
    match fs.lookup name with
    | none => (⟨[], 0⟩, some (.PathError "open" name (.Errno ENOENT)))
    | some i => (⟨name, i⟩, none)

/-- Go `os.Create(name)`: an existing file is truncated (its mode is kept), a
missing one is created with mode 0666 before umask; the file is returned
opened for writing at offset zero. -/
def Create (h : Host) (fs : FS) (name : GoString) : FS × File × Option GoError :=
  match h.CreateErr name with
  | some err => (fs, ⟨[], 0⟩, some err)
  | none =>
    match fs.lookup name with
    | some i => (fs.truncate i, ⟨name, i⟩, none)
    | none => (fs.addFile name (applyUmask 0o666 h.Umask), ⟨name, fs.files.length⟩, none)

/-- Go `(*os.File).Chmod(mode)`: sets the permission bits of the open file. -/
def Chmod (h : Host) (fs : FS) (f : File) (mode : Nat) : FS × Option GoError :=
  match h.ChmodErr f.name with
  | some err => (fs, some err)
  | none => (fs.setPerm f.ino mode, none)

/-- What reading an open file to its end delivers: all its bytes and no
error, or the bytes before the read fault and its error. -/
def readAll (h : Host) (fs : FS) (f : File) : GoString × Option GoError :=
  match h.ReadErr f.name with
  | none => (fs.dataOf f.ino, none)
  | some (n, err) => ((fs.dataOf f.ino).take n, some err)

end os

namespace io
open GitHooks

/-- The bytes of `data` that reach the file opened under `name` when written
from offset `off` on: all of them, or those before the first write fault
together with its error. -/
def writeFrom (h : Host) (name : GoString) : Nat → GoString → GoString × Option GoError
  | _, [] => ([], none)
  | off, b :: rest =>
    match h.WriteErr name off with
    | some err => ([], some err)
    | none => (b :: (writeFrom h name (off + 1) rest).1, (writeFrom h name (off + 1) rest).2)

/-- Go `io.Copy(dst, src)` where `src` delivers `data` and then ends with
`readErr` (`none` for end of input). The bytes are appended to `dst`, whose
write offset is the end of the file because the file was empty when it was
opened and only this handle writes to it. A write fault stops the copy and is
returned; otherwise the error of the source is. Returns the number of bytes
written next to the error. -/
def Copy (h : Host) (fs : FS) (dst : File) (data : GoString) (readErr : Option GoError) :
    FS × Nat × Option GoError :=
  let w := writeFrom h dst.name (fs.dataOf dst.ino).length data
  match w.2 with
  | some err => (fs.appendData dst.ino w.1, w.1.length, some err)
  | none => (fs.appendData dst.ino w.1, w.1.length, readErr)

end io

namespace GitHooks

/-- The loop of `extract` over the entries that `tr.Next()` returns. At the
end of the entries `Next` returns `io.EOF` (`final = none`: leave the loop, the
error result is nil) or an error, which is returned. The body of an entry
whose type is not `tar.TypeDir` is copied to `file`; a copy error is
returned at once. -/
def extractLoop (h : Host) (file : File) : FS → List TarEntry → Option GoError → FS × Option GoError
  | fs, [], final => (fs, final)
  | fs, hdr :: rest, final =>
    if hdr.Typeflag ≠ tar.TypeDir then
      match io.Copy h fs file hdr.body hdr.readErr with
      | (fs, _, some err) => (fs, some err)
      | (fs, _, none) => extractLoop h file fs rest final
    else extractLoop h file fs rest final

/-- Source `extract`. `NAME` is the temp-file prefix constant of the
repository (declared outside `util.go`). Returns the new file system, the
result `tmpFileName` and the result `err`. -/
def extract (h : Host) (NAME : GoString) (fs : FS) (fileName : GoString) :
    FS × GoString × Option GoError :=
  match ioutil.TempFile h fs h.TempDir NAME with
  | (fs, _, some err) => (fs, [], some err)
  | (fs, file, none) =>
    let tmpFileName := file.name
    match os.Open h fs fileName with
    | (_, some err) => (fs, tmpFileName, some err)
    | (targz, none) =>
      match h.TarGz (os.readAll h fs targz).1 (os.readAll h fs targz).2 with
      | .error err => (fs, tmpFileName, some err)
      | .ok tr =>
        match extractLoop h file fs tr.entries tr.final with
        | (fs, err) => (fs, tmpFileName, err)

/-- Source `installBinary`. Returns the new file system and the result `err`;
panics when `absExePath` does. -/
def installBinary (h : Host) (fs : FS) (src : GoString) : Run (FS × Option GoError) :=
  match absExePath h h.Args0 with
  | .panics => .panics
  | .returns (_, some err) => .returns (fs, some err)
  | .returns (dest, none) =>
    match os.Create h fs dest with
    | (fs, _, some err) => .returns (fs, some err)
    | (fs, out, none) =>
      match os.Chmod h fs out 0o755 with
      | (fs, some err) => .returns (fs, some err)
      | (fs, none) =>
        match os.Open h fs src with
        | (_, some err) => .returns (fs, some err)
        | (inp, none) =>
          match io.Copy h fs out (os.readAll h fs inp).1 (os.readAll h fs inp).2 with
          | (fs, _, err) => .returns (fs, err)

/-- The archive as `extract` sees it (lines 106 to 118): the result of opening
`fileName` and running the gzip and tar decoders over what the file delivers. -/
def decodeArchive (h : Host) (fs : FS) (fileName : GoString) : Except GoError TarStream :=
  match os.Open h fs fileName with
  | (_, some err) => .error err
  | (targz, none) => h.TarGz (os.readAll h fs targz).1 (os.readAll h fs targz).2

/-- An archive decodes without error: the gzip header is accepted, no entry
body ends in an error, and the entries end with a clean end of archive. -/
def decodesCleanly (r : Except GoError TarStream) : Bool :=
  match r with
  | .error _ => false
  | .ok ts => ts.final.isNone && ts.entries.all (fun e => e.readErr.isNone)

/-- The bytes of the entries that are not directories, in archive order. -/
def payloadBytes (entries : List TarEntry) : GoString :=
  ((entries.filter (fun e => decide (e.Typeflag ≠ tar.TypeDir))).map (fun e => e.body)).flatten

end GitHooks

/-! ## Concrete hosts used in the examples -/

namespace GitHooks

/-- ASCII white space as Go `unicode.IsSpace` defines it: tab, line feed,
vertical tab, form feed, carriage return, space. -/
def asciiSpace : List Nat := [9, 10, 11, 12, 13, 32]

/-- The bytes of a gzip-compressed tar archive (125 bytes) with three entries:
the directory `bin`, the file `bin/a` with content `"abc"` and the file `bin/b`
with content `"de"`. -/
def archiveBytes : GoString :=
  [31, 139, 8, 0, 0, 0, 0, 0, 2, 255, 237, 211, 57, 18, 194, 64, 12, 4, 64, 61, 197, 63, 192,
    28, 50, 239, 217, 5, 7, 36, 4, 28, 255, 103, 33, 116, 145, 26, 23, 229, 238, 100, 148, 41,
    152, 154, 122, 185, 110, 98, 102, 125, 115, 204, 252, 100, 51, 205, 47, 247, 144, 219, 140,
    46, 227, 7, 158, 247, 71, 185, 181, 151, 177, 78, 181, 245, 95, 22, 239, 127, 63, 237, 127,
    200, 67, 116, 189, 254, 103, 87, 234, 41, 88, 175, 247, 254, 235, 226, 251, 223, 217, 255,
    66, 206, 163, 13, 0, 0, 0, 0, 0, 0, 0, 192, 191, 123, 1, 63, 86, 170, 177, 0, 40, 0, 0]

/-- What the decoders deliver for `archiveBytes`: the directory entry (type
flag `'5'`), then two regular files (type flag `'0'`) with bodies `"abc"` and
`"de"`, then a clean end of archive. -/
def payloadArchive : TarStream :=
  { entries := [⟨53, [], none⟩, ⟨48, str "abc", none⟩, ⟨48, str "de", none⟩]
    final := none }

/-- A host on which every git command prints `"hello\n"` and succeeds and no
file operation faults. Its decoders are given for the one archive of the
examples: `archiveBytes`, read to the end, decodes to `payloadArchive`; any
other input is answered with the gzip header error. -/
def hostHello : Host :=
  { Args0 := str "/usr/local/bin/git-hooks"
    Getwd := (str "/repo", none)
    Output := fun _ => (str "hello\n", none)
    Stat := fun _ => (0o644, none)
    Lstat := fun _ => (0o755, none)
    Readlink := fun p => ([], some (.PathError "readlink" p (.Errno 22)))
    LookPath := fun p => (p, none)
    TempDir := str "/tmp"
    TempName := fun dir pattern => (dir ++ str "/" ++ pattern ++ str "123456", none)
    CreateErr := fun _ => none
    ChmodErr := fun _ => none
    OpenErr := fun _ => none
    ReadErr := fun _ => none
    WriteErr := fun _ _ => none
    Umask := 0o022
    TarGz := fun data readErr =>
      if data = archiveBytes ∧ readErr = none then .ok payloadArchive
      else .error (.Other "gzip: invalid header") }

/-- A host on which git prints an empty line before `hello`, as
`git log -1 --format=%nhello` does. -/
def hostLeadingNewline : Host :=
  { hostHello with Output := fun _ => (str "\nhello\n", none) }

/-- A host whose working directory `/tmp` is not inside a repository: git
exits with status 128 (after printing something on standard output). -/
def hostNotARepo : Host :=
  { hostHello with
    Getwd := (str "/tmp", none)
    Output := fun _ => (str "partial output\n", some (.ExitError 128)) }

/-- A host on which `/usr/local/bin/git-hooks` is a symlink with the stored
target `../libexec/git-hooks` (relative to the directory of the link), which
is itself a symlink to `git-hooks-1.2`. -/
def hostSymlink : Host :=
  { hostHello with
    LookPath := fun p =>
      if p = str "/usr/local/bin/git-hooks" then (p, none)
      else ([], some (.ExecError p (.Other "executable file not found in $PATH")))
    Lstat := fun p =>
      if p = str "/usr/local/bin/git-hooks" ∨ p = str "../libexec/git-hooks" then
        (os.ModeSymlink ||| 0o777, none)
      else (0o755, none)
    Readlink := fun p =>
      if p = str "/usr/local/bin/git-hooks" then (str "../libexec/git-hooks", none)
      else if p = str "../libexec/git-hooks" then (str "git-hooks-1.2", none)
      else ([], some (.PathError "readlink" p (.Errno 22))) }

/-- A host whose current working directory cannot be determined (it has been
removed): `os.Getwd` fails with `ENOENT`. -/
def hostNoCwd : Host :=
  { hostHello with Getwd := ([], some (.SyscallError "getwd" (.Errno 2))) }

/-- The temp-file prefix used in the examples for the constant `NAME`. -/
def exampleNAME : GoString := str "git-hooks"

/-- A file system holding a downloaded archive. -/
def fsArchive : FS :=
  { files := [{ names := [str "/tmp/git-hooks.tar.gz"], data := archiveBytes, perm := 0o600 }] }

/-- A file system holding the installed executable and an extracted new
binary. -/
def fsInstalled : FS :=
  { files :=
      [{ names := [str "/usr/local/bin/git-hooks"], data := str "old", perm := 0o755 },
       { names := [str "/tmp/git-hooks654321"], data := str "new binary", perm := 0o600 }] }

/-- A host on which no temporary file can be created (the temporary directory
is not writable). -/
def hostNoTemp : Host :=
  { hostHello with
    TempName := fun dir _ => ([], some (.PathError "open" dir .ErrPermission)) }

/-- A host whose disk is full after a thousand bytes: writing the byte at
offset 1000 or later fails with `ENOSPC`; the five bytes of the example payload
fit. -/
def hostFaultLater : Host :=
  { hostHello with
    WriteErr := fun name off =>
      if 1000 ≤ off then some (.PathError "write" name (.Errno 28)) else none }

/-- A host whose disk is full after three bytes: writing the byte at offset 3
or later fails with `ENOSPC`. -/
def hostDiskFull : Host :=
  { hostHello with
    WriteErr := fun name off =>
      if 3 ≤ off then some (.PathError "write" name (.Errno 28)) else none }

end GitHooks

/-! ## The loop of `filepath.Clean` never runs out of fuel -/

namespace filepath
open GitHooks

theorem length_dropWhile_le (p : Nat → Bool) (l : GoString) :
    (l.dropWhile p).length ≤ l.length := by
  induction l with
  | nil => simp
  | cons a t ih =>
    by_cases ha : p a = true
    · rw [List.dropWhile_cons_of_pos ha]
      exact Nat.le_succ_of_le ih
    · rw [List.dropWhile_cons_of_neg ha]

/-- The fuel of `cleanLoop` is never used up: any two amounts of fuel that
are at least the length of the unread input give the same result. -/
theorem cleanLoop_fuel (rooted : Bool) (n m : Nat) (rest out : GoString) (dotdot : Nat)
    (hn : rest.length ≤ n) (hm : rest.length ≤ m) :
    cleanLoop rooted n rest out dotdot = cleanLoop rooted m rest out dotdot := by
  induction n generalizing m rest out dotdot with
  | zero =>
    have : rest = [] := List.length_eq_zero.mp (Nat.le_zero.mp hn)
    subst this
    cases m <;> simp [cleanLoop]
  | succ k ih =>
    cases rest with
    | nil => cases m <;> simp [cleanLoop]
    | cons c t =>
      cases m with
      | zero => simp at hm
      | succ j =>
        have hk : t.length ≤ k := by simpa using hn
        have hj : t.length ≤ j := by simpa using hm
        have htk : t.tail.length ≤ k := le_trans (by simp) hk
        have htj : t.tail.length ≤ j := le_trans (by simp) hj
        simp only [cleanLoop]
        split
        · exact ih j t out dotdot hk hj
        · split
          · exact ih j t out dotdot hk hj
          · split
            · split
              · exact ih j _ _ _ htk htj
              · split
                · exact ih j _ _ _ htk htj
                · exact ih j _ _ _ htk htj
            · rename_i hc _ _
              have hd : (c :: t).dropWhile (fun b => b != 47)
                  = t.dropWhile (fun b => b != 47) := by
                rw [List.dropWhile_cons_of_pos]
                simpa using hc
              rw [hd]
              exact ih j _ _ _ (le_trans (length_dropWhile_le _ t) hk)
                (le_trans (length_dropWhile_le _ t) hj)

end filepath

/-! ## Process runner: `gitExecWithDir`, `gitExec`, `getGitRepoRoot`, `getGitDirPath` -/

namespace strings
open GitHooks

theorem splitLoop_ne_nil (sep : GoString) (fuel : Nat) (cur rest : GoString) :
    splitLoop sep fuel cur rest ≠ [] := by
  induction fuel generalizing cur rest with
  | zero => simp [splitLoop]
  | succ n ih =>
    cases rest with
    | nil => simp [splitLoop]
    | cons x xs =>
      simp only [splitLoop]
      split
      · simp
      · exact ih _ _

theorem Join_cons_of_ne_nil (a : GoString) (l : List GoString) (sep : GoString) (hl : l ≠ []) :
    Join (a :: l) sep = a ++ sep ++ Join l sep := by
  cases l with
  | nil => exact absurd rfl hl
  | cons b rest => simp [Join]

theorem isPrefixOf_singleton (c x : Nat) (xs : GoString) :
    List.isPrefixOf [c] (x :: xs) = decide (c = x) := by
  by_cases h : c = x <;> simp [List.isPrefixOf, h]

/-- Joining the pieces of the split loop with the one-byte separator gives
back the bytes the loop was started on. -/
theorem Join_splitLoop (c : Nat) (fuel : Nat) (cur rest : GoString) (hf : rest.length < fuel) :
    Join (splitLoop [c] fuel cur rest) [c] = cur ++ rest := by
  induction fuel generalizing cur rest with
  | zero => exact absurd hf (Nat.not_lt_zero _)
  | succ n ih =>
    cases rest with
    | nil => simp [splitLoop, Join]
    | cons x xs =>
      have hx : xs.length < n := by simpa using hf
      simp only [splitLoop, isPrefixOf_singleton]
      by_cases hcx : c = x
      · subst hcx
        simp only [decide_True, if_true, List.length_singleton, List.drop_succ_cons, List.drop_zero]
        rw [Join_cons_of_ne_nil _ _ _ (splitLoop_ne_nil _ _ _ _), ih [] xs hx]
        simp
      · simp only [hcx, decide_False, Bool.false_eq_true, if_false]
        rw [ih _ xs hx]
        simp

/-- No piece produced by the split loop contains the separator byte. -/
theorem not_mem_of_mem_splitLoop (c : Nat) (fuel : Nat) (cur rest : GoString)
    (hf : rest.length < fuel) (hcur : c ∉ cur) :
    ∀ t ∈ splitLoop [c] fuel cur rest, c ∉ t := by
  induction fuel generalizing cur rest with
  | zero => exact absurd hf (Nat.not_lt_zero _)
  | succ n ih =>
    cases rest with
    | nil =>
      intro t ht
      simp only [splitLoop, List.mem_singleton] at ht
      exact ht ▸ hcur
    | cons x xs =>
      have hx : xs.length < n := by simpa using hf
      simp only [splitLoop, isPrefixOf_singleton]
      by_cases hcx : c = x
      · subst hcx
        simp only [decide_True, if_true, List.length_singleton, List.drop_succ_cons, List.drop_zero]
        intro t ht
        rcases List.mem_cons.mp ht with h1 | h1
        · exact h1 ▸ hcur
        · exact ih [] xs hx (List.not_mem_nil _) t h1
      · simp only [hcx, decide_False, Bool.false_eq_true, if_false]
        refine ih _ xs hx ?_
        simp only [List.mem_append, List.mem_singleton, not_or]
        exact ⟨hcur, hcx⟩

/-- The split loop yields one more piece than the input has separator bytes. -/
theorem length_splitLoop (c : Nat) (fuel : Nat) (cur rest : GoString) (hf : rest.length < fuel) :
    (splitLoop [c] fuel cur rest).length = rest.count c + 1 := by
  induction fuel generalizing cur rest with
  | zero => exact absurd hf (Nat.not_lt_zero _)
  | succ n ih =>
    cases rest with
    | nil => simp [splitLoop]
    | cons x xs =>
      have hx : xs.length < n := by simpa using hf
      simp only [splitLoop, isPrefixOf_singleton]
      by_cases hcx : c = x
      · subst hcx
        simp [ih [] xs hx]
      · have hxc : ¬ x = c := fun h => hcx h.symm
        simp [hcx, ih _ xs hx, List.count_cons, hxc]

end strings

namespace bytes
open GitHooks

theorem head?_dropWhile_false (p : Nat → Bool) (l : GoString) (x : Nat)
    (hx : (l.dropWhile p).head? = some x) : p x = false := by
  induction l with
  | nil => simp at hx
  | cons a t ih =>
    by_cases ha : p a = true
    · rw [List.dropWhile_cons_of_pos ha] at hx
      exact ih hx
    · rw [List.dropWhile_cons_of_neg ha] at hx
      simp only [List.head?_cons, Option.some.injEq] at hx
      subst hx
      simpa using ha

theorem takeWhile_eq_replicate (c : Nat) (l : GoString) :
    l.takeWhile (fun b => decide (b ∈ [c])) =
      List.replicate (l.takeWhile (fun b => decide (b ∈ [c]))).length c := by
  rw [List.eq_replicate_iff]
  refine ⟨rfl, fun b hb => ?_⟩
  have := List.mem_takeWhile_imp hb
  simpa using this

/-- Trimming with a one-byte cutset removes a run of that byte at each end and
nothing else; what is left neither starts nor ends with the byte. -/
theorem Trim_singleton (s : GoString) (c : Nat) :
    ∃ a b, s = List.replicate a c ++ Trim s [c] ++ List.replicate b c ∧
      (Trim s [c]).head? ≠ some c ∧ (Trim s [c]).getLast? ≠ some c := by
  set p : Nat → Bool := fun b => decide (b ∈ [c]) with hp
  have hpc : p c = true := by simp [hp]
  set d := s.dropWhile p with hd
  have hs : s = s.takeWhile p ++ d := (List.takeWhile_append_dropWhile p s).symm
  have hdr : d = (d.reverse.dropWhile p).reverse ++ (d.reverse.takeWhile p).reverse := by
    have := congrArg List.reverse (List.takeWhile_append_dropWhile p d.reverse)
    rw [List.reverse_append, List.reverse_reverse] at this
    exact this.symm
  have hT : Trim s [c] = (d.reverse.dropWhile p).reverse := rfl
  refine ⟨(s.takeWhile p).length, (d.reverse.takeWhile p).length, ?_, ?_, ?_⟩
  · rw [hT, ← takeWhile_eq_replicate c s, List.append_assoc]
    have h2 : List.replicate (d.reverse.takeWhile p).length c = (d.reverse.takeWhile p).reverse := by
      rw [← List.reverse_replicate, ← takeWhile_eq_replicate c d.reverse]
    rw [h2, ← hdr]
    exact hs
  · intro hh
    rw [hT] at hh
    have hdh : d.head? = some c := by
      rw [hdr]
      cases hr : (d.reverse.dropWhile p).reverse with
      | nil => rw [hr] at hh; simp at hh
      | cons y ys =>
        rw [hr] at hh
        simp only [List.head?_cons, Option.some.injEq] at hh
        simp [hh]
    have := head?_dropWhile_false p s c hdh
    rw [hpc] at this
    exact Bool.noConfusion this
  · intro hh
    rw [hT, List.getLast?_reverse] at hh
    have := head?_dropWhile_false p d.reverse c hh
    rw [hpc] at this
    exact Bool.noConfusion this
end bytes

namespace GitHooks

theorem str_space : str " " = [32] := by decide

theorem str_newline : str "\n" = [10] := by decide

/-- Sanity checks of the standard-library models on concrete inputs. -/
theorem stdlib_model_examples :
    strings.Split (str "a b  c") (str " ") = [str "a", str "b", [], str "c"] ∧
    bytes.Trim (str "\nhello\n\n") (str "\n") = str "hello" ∧
    filepath.Clean (str "./foo") = str "foo" ∧
    filepath.Clean (str "") = str "." ∧
    filepath.Clean (str "/usr//local/../bin/./x/") = str "/usr/bin/x" ∧
    filepath.Clean (str "../../a/b/../../..") = str "../../.." ∧
    filepath.Clean (str "/../a") = str "/a" ∧
    filepath.Clean (str "abc/def/..") = str "abc" ∧
    filepath.Clean (str "a/b/c/../../d") = str "a/d" ∧
    filepath.Join [str "/home/u", str "./foo"] = str "/home/u/foo" := by decide

/-- C2, counterexample: the output `"\nhello\n"` of a successful command is
returned as `"hello"`; the leading newline is removed as well, so the output is
not the returned text followed only by newlines. -/
theorem gitExecWithDir_trailing_only_counterexample :
    hostLeadingNewline.Output (gitCommand (str "/repo") [str "log -1 --format=%nhello"])
        = (str "\nhello\n", none) ∧
      gitExecWithDir hostLeadingNewline (str "/repo") [str "log -1 --format=%nhello"]
        = (str "hello", none) ∧
      ¬ ∃ k, str "\nhello\n" =
        (gitExecWithDir hostLeadingNewline (str "/repo") [str "log -1 --format=%nhello"]).1
          ++ List.replicate k 10 := by
  refine ⟨by decide, by decide, ?_⟩
  rintro ⟨k, hk⟩
  have h1 : (gitExecWithDir hostLeadingNewline (str "/repo")
      [str "log -1 --format=%nhello"]).1 = str "hello" := by decide
  have e1 : str "\nhello\n" = [10, 104, 101, 108, 108, 111, 10] := by decide
  have e2 : str "hello" = [104, 101, 108, 108, 111] := by decide
  rw [h1, e1, e2] at hk
  simp at hk

/-- C2, amended: when the command succeeds with output `s`, the result is `s`
with its leading and its trailing newlines removed and nothing else changed:
`s` is a run of newlines, the returned text, and a run of newlines; the
returned text neither starts nor ends with a newline; and when `s` does not
start with a newline, `s` is the returned text followed only by newlines. -/
theorem gitExecWithDir_trims_newlines_both_ends (h : Host) (dir : GoString)
    (args : List GoString) (s : GoString)
    (hs : h.Output (gitCommand dir args) = (s, none)) :
    ∃ r a b, gitExecWithDir h dir args = (r, none) ∧
      s = List.replicate a 10 ++ r ++ List.replicate b 10 ∧
      r.head? ≠ some 10 ∧ r.getLast? ≠ some 10 ∧
      (s.head? ≠ some 10 → s = r ++ List.replicate b 10) := by
  obtain ⟨a, b, hab, hh, hl⟩ := bytes.Trim_singleton s 10
  refine ⟨bytes.Trim s [10], a, b, ?_, hab, hh, hl, ?_⟩
  · simp only [gitExecWithDir, hs, str_newline]
  · intro hne
    cases a with
    | zero => simpa using hab
    | succ n =>
      exfalso
      apply hne
      rw [hab]
      simp [List.replicate_succ]

theorem gitExecWithDir_trims_newlines_both_ends_witness :
    hostHello.Output (gitCommand (str "/repo") [str "status"]) = (str "hello\n", none) ∧
    ∃ r a b, gitExecWithDir hostHello (str "/repo") [str "status"] = (r, none) ∧
      str "hello\n" = List.replicate a 10 ++ r ++ List.replicate b 10 ∧
      r.head? ≠ some 10 ∧ r.getLast? ≠ some 10 ∧
      ((str "hello\n").head? ≠ some 10 → str "hello\n" = r ++ List.replicate b 10) :=
  ⟨by decide,
   gitExecWithDir_trims_newlines_both_ends hostHello (str "/repo") [str "status"]
     (str "hello\n") (by decide)⟩

/-- C3: when running the git command fails with error `e`, `gitExecWithDir`
returns the empty string and exactly `e`, whatever was captured on standard
output; and with `dir` the current working directory, `gitExec`,
`getGitRepoRoot` and `getGitDirPath` return that same pair. -/
theorem git_failure_returned_unchanged (h : Host) (dir : GoString) (args : List GoString)
    (out : GoString) (e : GoError)
    (hfail : h.Output (gitCommand dir args) = (out, some e)) :
    gitExecWithDir h dir args = ([], some e) ∧
    (h.Getwd = (dir, none) →
      gitExec h args = ([], some e) ∧
      (args = [str "rev-parse --show-toplevel"] → getGitRepoRoot h = ([], some e)) ∧
      (args = [str "rev-parse --git-dir"] → getGitDirPath h = ([], some e))) := by
  have h1 : gitExecWithDir h dir args = ([], some e) := by
    simp only [gitExecWithDir, hfail]
  refine ⟨h1, fun hwd => ?_⟩
  have h2 : gitExec h args = ([], some e) := by
    simp only [gitExec, hwd, h1]
  refine ⟨h2, fun ha => ?_, fun ha => ?_⟩
  · subst ha
    exact h2
  · subst ha
    exact h2

theorem git_failure_returned_unchanged_witness :
    hostNotARepo.Output (gitCommand (str "/tmp") [str "rev-parse --show-toplevel"])
        = (str "partial output\n", some (.ExitError 128)) ∧
    hostNotARepo.Getwd = (str "/tmp", none) ∧
    gitExecWithDir hostNotARepo (str "/tmp") [str "rev-parse --show-toplevel"]
      = ([], some (.ExitError 128)) ∧
    gitExec hostNotARepo [str "rev-parse --show-toplevel"] = ([], some (.ExitError 128)) ∧
    getGitRepoRoot hostNotARepo = ([], some (.ExitError 128)) :=
  have key := git_failure_returned_unchanged hostNotARepo (str "/tmp")
    [str "rev-parse --show-toplevel"] (str "partial output\n") (.ExitError 128) (by decide)
  ⟨by decide, by decide, key.1, (key.2 (by decide)).1, (key.2 (by decide)).2.1 rfl⟩

/-- C7, counterexample: for `"log  -1"` (two spaces) git receives an empty
token, and for `"log\t-1"` it receives a token that contains a tab; so the
tokens are not always non-empty and free of whitespace. -/
theorem gitCommand_whitespace_tokens_counterexample :
    (¬ ∀ t ∈ (gitCommand (str "/repo") [str "log  -1"]).Args.tail,
        t ≠ [] ∧ ∀ b ∈ t, b ∉ asciiSpace) ∧
    (gitCommand (str "/repo") [str "log  -1"]).Args.tail = [str "log", [], str "-1"] ∧
    (¬ ∀ t ∈ (gitCommand (str "/repo") [str "log\t-1"]).Args.tail,
        t ≠ [] ∧ ∀ b ∈ t, b ∉ asciiSpace) ∧
    (gitCommand (str "/repo") [str "log\t-1"]).Args.tail = [str "log\t-1"] := by
  decide

/-- C7, amended: the argument list handed to git is the space-joined command
line split at every single space byte: the command name is `git`, no token
contains a space, joining the tokens with single spaces gives back the command line, and
there is one more token than the command line has spaces (tokens may be empty
and may contain other whitespace). The result of `gitExecWithDir` is what
`cmd.Output` answers for exactly this command. -/
theorem gitCommand_args_split_at_spaces (dir : GoString) (args : List GoString) :
    (gitCommand dir args).Dir = dir ∧
    (gitCommand dir args).Args.head? = some (str "git") ∧
    (∀ t ∈ (gitCommand dir args).Args.tail, 32 ∉ t) ∧
    strings.Join (gitCommand dir args).Args.tail (str " ") = strings.Join args (str " ") ∧
    (gitCommand dir args).Args.tail.length = (strings.Join args (str " ")).count 32 + 1 ∧
    (∀ h : Host, gitExecWithDir h dir args =
      match h.Output (gitCommand dir args) with
      | (out, none) => (bytes.Trim out (str "\n"), none)
      | (_, some err) => ([], some err)) := by
  have hsplit : (gitCommand dir args).Args.tail =
      strings.splitLoop [32] ((strings.Join args [32]).length + 1) [] (strings.Join args [32]) := by
    simp [gitCommand, exec.Command, strings.Split, str_space]
  refine ⟨rfl, rfl, ?_, ?_, ?_, fun h => rfl⟩
  · rw [hsplit]
    exact strings.not_mem_of_mem_splitLoop 32 _ [] _ (Nat.lt_succ_self _) (List.not_mem_nil _)
  · rw [hsplit, str_space, strings.Join_splitLoop 32 _ [] _ (Nat.lt_succ_self _)]
    simp
  · rw [hsplit, str_space, strings.length_splitLoop 32 _ [] _ (Nat.lt_succ_self _)]

/-- C8: `exists` returns `(true, nil)` exactly when `os.Stat` succeeds,
`(false, nil)` exactly when it fails with a not-found error, and
`(false, err)` with the error of `os.Stat` unchanged exactly when it fails
with any other error. -/
theorem exists_result_by_stat (h : Host) (path : GoString) :
    (exists_ h path = (true, none) ↔ (h.Stat path).2 = none) ∧
    (exists_ h path = (false, none) ↔
      ∃ e, (h.Stat path).2 = some e ∧ os.IsNotExist e = true) ∧
    (∀ e, exists_ h path = (false, some e) ↔
      ((h.Stat path).2 = some e ∧ os.IsNotExist e = false)) := by
  rcases hst : h.Stat path with ⟨m, _ | e0⟩
  · simp [exists_, hst]
  · by_cases hne : os.IsNotExist e0 = true
    · simp only [exists_, hst, hne, if_true]
      refine ⟨by simp, by simp [hne], fun e => ?_⟩
      constructor
      · intro hc
        simp at hc
      · rintro ⟨h1, h2⟩
        simp only [Option.some.injEq] at h1
        subst h1
        rw [hne] at h2
        exact Bool.noConfusion h2
    · have hf : os.IsNotExist e0 = false := by simpa using hne
      simp only [exists_, hst, hf, Bool.false_eq_true, if_false]
      refine ⟨by simp, ?_, fun e => ?_⟩
      · constructor
        · intro hc
          simp at hc
        · rintro ⟨e, h1, h2⟩
          simp only [Option.some.injEq] at h1
          subst h1
          rw [hf] at h2
          exact Bool.noConfusion h2
      · constructor
        · intro hc
          simp only [Prod.mk.injEq, Option.some.injEq, true_and] at hc
          subst hc
          exact ⟨rfl, hf⟩
        · rintro ⟨h1, _⟩
          simp only [Option.some.injEq] at h1
          subst h1
          rfl

/-! ## Path resolver: `absExePath` -/

/-- When `os.Getwd` fails, a reference starting with a dot is answered with
the path `"."` and the error of `os.Getwd`, whatever the reference is. -/
theorem absExePath_of_getwd_error (h : Host) (exe rest wd : GoString) (e : GoError)
    (hexe : exe = 46 :: rest) (hwd : h.Getwd = (wd, some e)) :
    absExePath h exe = .returns (str ".", some e) := by
  subst hexe
  have habs : filepath.Abs h (46 :: rest) = ([], some e) := by
    simp [filepath.Abs, filepath.IsAbs, hwd]
  have hclean : filepath.Clean [] = str "." := by decide
  simp [absExePath, habs, hclean]

/-- C5, the code at the failing input: for the absolute reference
`/usr/local/bin/git-hooks`, a symlink with stored target
`../libexec/git-hooks`, `absExePath` returns that relative target with a nil
error; the returned path is not absolute. -/
theorem absExePath_returns_relative_link_target :
    filepath.IsAbs (str "/usr/local/bin/git-hooks") = true ∧
    absExePath hostSymlink (str "/usr/local/bin/git-hooks")
      = .returns (str "../libexec/git-hooks", none) ∧
    filepath.IsAbs (str "../libexec/git-hooks") = false := by
  decide

/-- C6: when the first stage (absolute-path computation for a reference
starting with a dot, search-path lookup of the cleaned reference otherwise)
succeeds with path `p` and `os.Lstat` reports the mode of `p`: if the mode has
the symlink bit and the stored target is `t`, the result is exactly `t` with a
nil error, whatever `t` itself is; if the mode does not have the symlink bit,
the result is `p` with a nil error. -/
theorem absExePath_follows_one_hop (h : Host) (exe p : GoString) (c : Nat) (mode : FileMode)
    (hc : exe[0]? = some c)
    (hfirst : (c = 46 ∧ filepath.Abs h exe = (p, none)) ∨
      (c ≠ 46 ∧ h.LookPath (filepath.Clean exe) = (p, none)))
    (hstat : h.Lstat p = (mode, none)) :
    (mode &&& os.ModeSymlink ≠ 0 →
      ∀ t, h.Readlink p = (t, none) → absExePath h exe = .returns (t, none)) ∧
    (mode &&& os.ModeSymlink = 0 → absExePath h exe = .returns (p, none)) := by
  rcases hfirst with ⟨h46, habs⟩ | ⟨hne, hlook⟩
  · constructor
    · intro hm t ht
      simp [absExePath, hc, h46, habs, hstat, hm, ht]
    · intro hm
      simp [absExePath, hc, h46, habs, hstat, hm]
  · constructor
    · intro hm t ht
      simp [absExePath, hc, hne, hlook, hstat, hm, ht]
    · intro hm
      simp [absExePath, hc, hne, hlook, hstat, hm]

theorem absExePath_follows_one_hop_witness :
    (str "/usr/local/bin/git-hooks")[0]? = some 47 ∧
    hostSymlink.LookPath (filepath.Clean (str "/usr/local/bin/git-hooks"))
      = (str "/usr/local/bin/git-hooks", none) ∧
    hostSymlink.Lstat (str "/usr/local/bin/git-hooks") = (os.ModeSymlink ||| 0o777, none) ∧
    (os.ModeSymlink ||| 0o777) &&& os.ModeSymlink ≠ 0 ∧
    hostSymlink.Readlink (str "/usr/local/bin/git-hooks") = (str "../libexec/git-hooks", none) ∧
    (hostSymlink.Lstat (str "../libexec/git-hooks")).1 &&& os.ModeSymlink ≠ 0 ∧
    absExePath hostSymlink (str "/usr/local/bin/git-hooks")
      = .returns (str "../libexec/git-hooks", none) :=
  ⟨by decide, by decide, by decide, by decide, by decide, by decide,
   (absExePath_follows_one_hop hostSymlink (str "/usr/local/bin/git-hooks")
      (str "/usr/local/bin/git-hooks") 47 (os.ModeSymlink ||| 0o777)
      (by decide) (Or.inr ⟨by decide, by decide⟩) (by decide)).1 (by decide)
      (str "../libexec/git-hooks") (by decide)⟩

/-- C9, the code at the failing input: for the reference `./foo` on a host
whose working directory cannot be determined, `absExePath` returns the path
`"."` (the cleaned form of the empty string that `filepath.Abs` handed back)
together with the error of `os.Getwd`; the cleaned form of the reference is
`foo`. -/
theorem absExePath_fallback_cleans_empty_string :
    filepath.Abs hostNoCwd (str "./foo") = ([], some (.SyscallError "getwd" (.Errno 2))) ∧
    absExePath hostNoCwd (str "./foo")
      = .returns (str ".", some (.SyscallError "getwd" (.Errno 2))) ∧
    filepath.Clean (str "./foo") = str "foo" ∧
    str "." ≠ str "foo" := by
  decide

/-- C10: for a non-empty reference the index 0 is in range and `absExePath`
returns a (path, error) pair; for the empty reference the index is out of
range and `absExePath` panics instead of returning. -/
theorem absExePath_returns_iff_nonempty (h : Host) (exe : GoString) :
    (exe ≠ [] → 0 < exe.length ∧ ∃ name err, absExePath h exe = .returns (name, err)) ∧
    (exe = [] → ¬ 0 < exe.length ∧ absExePath h exe = .panics) := by
  constructor
  · intro hne
    cases exe with
    | nil => exact absurd rfl hne
    | cons c rest =>
      refine ⟨by simp, ?_⟩
      simp only [absExePath, List.getElem?_cons_zero]
      repeat' split
      all_goals exact ⟨_, _, rfl⟩
  · intro he
    subst he
    exact ⟨by simp, rfl⟩

theorem absExePath_returns_iff_nonempty_witness :
    (str "git-hooks" ≠ [] ∧ 0 < (str "git-hooks").length ∧
      ∃ name err, absExePath hostSymlink (str "git-hooks") = .returns (name, err)) ∧
    absExePath hostSymlink [] = .panics :=
  ⟨⟨by decide, (absExePath_returns_iff_nonempty hostSymlink (str "git-hooks")).1 (by decide)⟩,
   ((absExePath_returns_iff_nonempty hostSymlink []).2 rfl).2⟩

/-! ## File system lemmas, `extract` and `installBinary` -/

theorem writeFrom_of_no_fault (h : Host) (name : GoString) (off : Nat) (data : GoString)
    (hw : ∀ k, k < data.length → h.WriteErr name (off + k) = none) :
    io.writeFrom h name off data = (data, none) := by
  induction data generalizing off with
  | nil => rfl
  | cons b rest ih =>
    have h0 : h.WriteErr name off = none := by simpa using hw 0 (by simp)
    have hrest : ∀ k, k < rest.length → h.WriteErr name (off + 1 + k) = none := by
      intro k hk
      have := hw (k + 1) (by simpa using hk)
      rw [show off + 1 + k = off + (k + 1) by omega]
      exact this
    simp [io.writeFrom, h0, ih (off + 1) hrest]

theorem lookupIn_lt (p : GoString) (l : List FileNode) (i : Nat) (hi : lookupIn p l = some i) :
    i < l.length := by
  induction l generalizing i with
  | nil => simp [lookupIn] at hi
  | cons n rest ih =>
    simp only [lookupIn] at hi
    split at hi
    · simp only [Option.some.injEq] at hi
      subst hi
      simp
    · cases hr : lookupIn p rest with
      | none => simp [hr] at hi
      | some j =>
        simp only [hr, Option.map_some', Option.some.injEq] at hi
        subst hi
        simpa using ih j hr

theorem lookupIn_append_of_some (p : GoString) (l l2 : List FileNode) (i : Nat)
    (hi : lookupIn p l = some i) : lookupIn p (l ++ l2) = some i := by
  induction l generalizing i with
  | nil => simp [lookupIn] at hi
  | cons n rest ih =>
    rw [List.cons_append]
    simp only [lookupIn] at hi ⊢
    split
    · rename_i hp
      simpa [hp] using hi
    · rename_i hp
      simp only [hp, if_false] at hi
      cases hr : lookupIn p rest with
      | none => simp [hr] at hi
      | some j => rw [ih j hr]; rw [hr] at hi; exact hi

theorem lookupIn_append_new (p : GoString) (l : List FileNode) (data : GoString) (perm : Nat)
    (hp : lookupIn p l = none) :
    lookupIn p (l ++ [{ names := [p], data := data, perm := perm }]) = some l.length := by
  induction l with
  | nil => simp [lookupIn]
  | cons n rest ih =>
    simp only [lookupIn] at hp
    split at hp
    · simp at hp
    · rename_i hn
      have hr : lookupIn p rest = none := by
        cases hr : lookupIn p rest with
        | none => rfl
        | some j => simp [hr] at hp
      simp [lookupIn, hn, ih hr]

theorem lookupIn_modifyAt (p : GoString) (f : FileNode → FileNode)
    (hf : ∀ n, (f n).names = n.names) (i : Nat) (l : List FileNode) :
    lookupIn p (modifyAt f i l) = lookupIn p l := by
  induction l generalizing i with
  | nil => cases i <;> rfl
  | cons n rest ih =>
    cases i with
    | zero => simp [modifyAt, lookupIn, hf]
    | succ k => simp [modifyAt, lookupIn, ih]

theorem getElem?_modifyAt_eq (f : FileNode → FileNode) (i : Nat) (l : List FileNode) :
    (modifyAt f i l)[i]? = (l[i]?).map f := by
  induction l generalizing i with
  | nil => cases i <;> rfl
  | cons n rest ih =>
    cases i with
    | zero => simp [modifyAt]
    | succ k => simp [modifyAt, ih]

theorem getElem?_modifyAt_ne (f : FileNode → FileNode) (i j : Nat) (hij : i ≠ j)
    (l : List FileNode) : (modifyAt f i l)[j]? = l[j]? := by
  induction l generalizing i j with
  | nil => cases i <;> rfl
  | cons n rest ih =>
    cases i with
    | zero =>
      cases j with
      | zero => exact absurd rfl hij
      | succ m => simp [modifyAt]
    | succ k =>
      cases j with
      | zero => simp [modifyAt]
      | succ m =>
        have : k ≠ m := fun hkm => hij (by rw [hkm])
        simp [modifyAt, ih k m this]

theorem modifyAt_modifyAt (f g : FileNode → FileNode) (i : Nat) (l : List FileNode) :
    modifyAt g i (modifyAt f i l) = modifyAt (fun n => g (f n)) i l := by
  induction l generalizing i with
  | nil => cases i <;> rfl
  | cons n rest ih =>
    cases i with
    | zero => simp [modifyAt]
    | succ k => simp [modifyAt, ih]

theorem modifyAt_of_fix (f : FileNode → FileNode) (hf : ∀ n, f n = n) (i : Nat)
    (l : List FileNode) : modifyAt f i l = l := by
  induction l generalizing i with
  | nil => cases i <;> rfl
  | cons n rest ih =>
    cases i with
    | zero => simp [modifyAt, hf]
    | succ k => simp [modifyAt, ih]

theorem appendData_nil (fs : FS) (i : Nat) : fs.appendData i [] = fs := by
  cases fs with
  | mk files =>
    simp only [FS.appendData, FS.mk.injEq]
    exact modifyAt_of_fix _ (fun n => by simp) i files

theorem appendData_appendData (fs : FS) (i : Nat) (a b : GoString) :
    (fs.appendData i a).appendData i b = fs.appendData i (a ++ b) := by
  simp only [FS.appendData, modifyAt_modifyAt, List.append_assoc]

theorem payloadBytes_cons (e : TarEntry) (rest : List TarEntry) :
    payloadBytes (e :: rest) =
      if e.Typeflag ≠ tar.TypeDir then e.body ++ payloadBytes rest else payloadBytes rest := by
  by_cases hd : e.Typeflag = tar.TypeDir <;> simp [payloadBytes, List.filter_cons, hd]

theorem dataOf_appendData_same (fs : FS) (i : Nat) (w : GoString) (node : FileNode)
    (hn : fs.files[i]? = some node) : (fs.appendData i w).dataOf i = fs.dataOf i ++ w := by
  simp [FS.dataOf, FS.appendData, getElem?_modifyAt_eq, hn]

/-- When no write that the loop performs hits a fault (the offsets from the
current end of the output file up to that end plus the payload) and no entry
ends in a read error, the loop appends the bodies of the non-directory
entries, in order, to the output file and ends with the final result of the
tar reader. -/
theorem extractLoop_of_no_fault (h : Host) (file : File) (entries : List TarEntry)
    (hr : ∀ e ∈ entries, e.readErr = none) (final : Option GoError) (fs : FS)
    (node : FileNode) (hn : fs.files[file.ino]? = some node)
    (hw : ∀ k, k < (payloadBytes entries).length →
      h.WriteErr file.name ((fs.dataOf file.ino).length + k) = none) :
    extractLoop h file fs entries final
      = (fs.appendData file.ino (payloadBytes entries), final) := by
  induction entries generalizing fs node with
  | nil => simp [extractLoop, payloadBytes, appendData_nil]
  | cons e rest ih =>
    have hrest : ∀ e2 ∈ rest, e2.readErr = none := fun e2 he2 => hr e2 (List.mem_cons_of_mem _ he2)
    have he : e.readErr = none := hr e (List.mem_cons_self _ _)
    rw [payloadBytes_cons] at hw ⊢
    by_cases hd : e.Typeflag = tar.TypeDir
    · simp only [hd, ne_eq, not_true_eq_false, if_false] at hw
      simp only [extractLoop, hd, ne_eq, not_true_eq_false, if_false]
      exact ih hrest fs node hn hw
    · simp only [ne_eq, hd, not_false_eq_true, if_true, List.length_append] at hw
      have hbody : ∀ k, k < e.body.length →
          h.WriteErr file.name ((fs.dataOf file.ino).length + k) = none :=
        fun k hk => hw k (by omega)
      have hn2 : (fs.appendData file.ino e.body).files[file.ino]?
          = some { node with data := node.data ++ e.body } := by
        simp [FS.appendData, getElem?_modifyAt_eq, hn]
      have hw2 : ∀ k, k < (payloadBytes rest).length →
          h.WriteErr file.name (((fs.appendData file.ino e.body).dataOf file.ino).length + k)
            = none := by
        intro k hk
        rw [dataOf_appendData_same fs file.ino e.body node hn, List.length_append,
          Nat.add_assoc]
        exact hw (e.body.length + k) (by omega)
      simp only [extractLoop, ne_eq, hd, not_false_eq_true, if_true, io.Copy,
        writeFrom_of_no_fault h file.name _ e.body hbody, he]
      rw [ih hrest _ _ hn2 hw2, appendData_appendData]

theorem TempFile_ok (h : Host) (fs fs1 : FS) (dir pattern : GoString) (file : File)
    (htmp : ioutil.TempFile h fs dir pattern = (fs1, file, none)) :
    fs.lookup file.name = none ∧
      fs1 = fs.addFile file.name (applyUmask 0o600 h.Umask) ∧ file.ino = fs.files.length := by
  unfold ioutil.TempFile at htmp
  rcases hn : h.TempName dir pattern with ⟨name, _ | err⟩
  · rw [hn] at htmp
    cases hl : fs.lookup name with
    | some j => simp [hl] at htmp
    | none =>
      simp only [hl, Prod.mk.injEq, and_true] at htmp
      obtain ⟨h1, h2⟩ := htmp
      subst h2
      exact ⟨hl, h1.symm, rfl⟩
  · rw [hn] at htmp
    simp at htmp

theorem lookup_addFile_of_some (fs : FS) (p q : GoString) (perm i : Nat)
    (hi : fs.lookup p = some i) : (fs.addFile q perm).lookup p = some i :=
  lookupIn_append_of_some p fs.files _ i hi

theorem lookup_addFile_new (fs : FS) (p : GoString) (perm : Nat) (hp : fs.lookup p = none) :
    (fs.addFile p perm).lookup p = some fs.files.length :=
  lookupIn_append_new p fs.files [] perm hp

theorem dataOf_addFile_of_lt (fs : FS) (q : GoString) (perm i : Nat) (hi : i < fs.files.length) :
    (fs.addFile q perm).dataOf i = fs.dataOf i := by
  simp [FS.dataOf, FS.addFile, List.getElem?_append_left hi]

theorem readAll_addFile (h : Host) (fs : FS) (q : GoString) (perm : Nat) (f : File)
    (hi : f.ino < fs.files.length) :
    os.readAll h (fs.addFile q perm) f = os.readAll h fs f := by
  simp [os.readAll, dataOf_addFile_of_lt fs q perm f.ino hi]

theorem decodesCleanly_ok (r : Except GoError TarStream) (hr : decodesCleanly r = true) :
    ∃ ts, r = .ok ts ∧ ts.final = none ∧ ∀ e ∈ ts.entries, e.readErr = none := by
  cases r with
  | error e => simp [decodesCleanly] at hr
  | ok ts =>
    simp only [decodesCleanly, Bool.and_eq_true, Option.isNone_iff_eq_none, List.all_eq_true] at hr
    exact ⟨ts, rfl, hr.1, hr.2⟩

theorem lookup_modifyAt (fs : FS) (p : GoString) (f : FileNode → FileNode)
    (hf : ∀ n, (f n).names = n.names) (i : Nat) :
    FS.lookup ⟨modifyAt f i fs.files⟩ p = fs.lookup p :=
  lookupIn_modifyAt p f hf i fs.files

theorem fileAt_modifyAt_same (fs : FS) (p : GoString) (f : FileNode → FileNode)
    (hf : ∀ n, (f n).names = n.names) (i : Nat) (node : FileNode)
    (hn : fs.fileAt p = some node) (hl : fs.lookup p = some i) :
    FS.fileAt ⟨modifyAt f i fs.files⟩ p = some (f node) := by
  simp only [FS.fileAt, hl, Option.some_bind] at hn
  simp only [FS.fileAt, lookup_modifyAt fs p f hf i, hl, Option.some_bind,
    getElem?_modifyAt_eq, hn, Option.map_some']

theorem fileAt_modifyAt_other (fs : FS) (p : GoString) (f : FileNode → FileNode)
    (hf : ∀ n, (f n).names = n.names) (i : Nat) (hl : fs.lookup p ≠ some i) :
    FS.fileAt ⟨modifyAt f i fs.files⟩ p = fs.fileAt p := by
  simp only [FS.fileAt, lookup_modifyAt fs p f hf i]
  cases hp : fs.lookup p with
  | none => rfl
  | some j =>
    have hij : i ≠ j := fun hij => hl (by rw [hp, hij])
    simp only [Option.some_bind, getElem?_modifyAt_ne f i j hij]

theorem fileAt_addFile_new (fs : FS) (p : GoString) (perm : Nat) (hp : fs.lookup p = none) :
    (fs.addFile p perm).fileAt p = some { names := [p], data := [], perm := perm } := by
  unfold FS.fileAt
  rw [lookup_addFile_new fs p perm hp]
  simp [FS.addFile]

theorem fileAt_addFile_of_some (fs : FS) (p q : GoString) (perm : Nat) (node : FileNode)
    (hn : fs.fileAt p = some node) : (fs.addFile q perm).fileAt p = some node := by
  cases hl : fs.lookup p with
  | none => simp [FS.fileAt, hl] at hn
  | some i =>
    have hi : i < fs.files.length := lookupIn_lt p fs.files i hl
    unfold FS.fileAt at hn ⊢
    rw [hl] at hn
    rw [lookup_addFile_of_some fs p q perm i hl]
    simp only [Option.some_bind, FS.addFile] at hn ⊢
    rw [List.getElem?_append_left hi]
    exact hn

/-- C1, amended: when the archive at `fileName` opens and decodes without
error to the entries `ts`, the temporary file is created and every write to it
succeeds (no fault at the offsets of the payload), `extract` returns a nil
error and the path of the temporary file; that path named no file before the
call, and afterwards it names a file whose content is the concatenation, in
archive order, of the bodies of exactly the entries that are not directories
(the empty content when there is no such entry). -/
theorem extract_concatenates_payload (h : Host) (NAME : GoString) (fs : FS)
    (fileName : GoString) (fs1 : FS) (file : File) (ts : TarStream)
    (hdec : decodeArchive h fs fileName = .ok ts)
    (harch : decodesCleanly (decodeArchive h fs fileName) = true)
    (htmp : ioutil.TempFile h fs h.TempDir NAME = (fs1, file, none))
    (hwrite : ∀ off, off < (payloadBytes ts.entries).length →
      h.WriteErr file.name off = none) :
    ∃ fs2, extract h NAME fs fileName = (fs2, file.name, none) ∧
      fs.fileAt file.name = none ∧
      (fs2.fileAt file.name).map (fun n => n.data) = some (payloadBytes ts.entries) := by
  obtain ⟨ts0, hts0, hfinal, hentries⟩ := decodesCleanly_ok _ harch
  have hts : decodeArchive h fs fileName = .ok ts := hdec
  have hsame : ts0 = ts := by
    rw [hts0] at hdec
    exact Except.ok.inj hdec
  subst hsame
  obtain ⟨hfresh, hfs1, hino⟩ := TempFile_ok h fs fs1 h.TempDir NAME file htmp
  -- the archive file opens, in the old and in the new file system
  unfold decodeArchive at hts
  have hopen : ∃ i, os.Open h fs fileName = (⟨fileName, i⟩, none) ∧ fs.lookup fileName = some i := by
    unfold os.Open at hts ⊢
    cases ho : h.OpenErr fileName with
    | some e => simp [ho] at hts
    | none =>
      cases hl : fs.lookup fileName with
      | none => simp [ho, hl] at hts
      | some i => exact ⟨i, rfl, rfl⟩
  obtain ⟨i, hopen, hlook⟩ := hopen
  rw [hopen] at hts
  simp only at hts
  have hi : i < fs.files.length := lookupIn_lt fileName fs.files i hlook
  have hopen1 : os.Open h fs1 fileName = (⟨fileName, i⟩, none) := by
    have hl1 : fs1.lookup fileName = some i := by
      rw [hfs1]; exact lookup_addFile_of_some fs fileName _ _ i hlook
    unfold os.Open at hopen ⊢
    cases ho : h.OpenErr fileName with
    | some e => simp [ho] at hopen
    | none => simp [hl1]
  have hread1 : os.readAll h fs1 ⟨fileName, i⟩ = os.readAll h fs ⟨fileName, i⟩ := by
    rw [hfs1]; exact readAll_addFile h fs _ _ ⟨fileName, i⟩ hi
  -- the temporary file is the new, empty last file
  have hnode1 : fs1.files[file.ino]?
      = some { names := [file.name], data := [], perm := applyUmask 0o600 h.Umask } := by
    rw [hfs1, hino]
    simp [FS.addFile]
  have hdata1 : fs1.dataOf file.ino = [] := by
    simp [FS.dataOf, hnode1]
  have hw1 : ∀ k, k < (payloadBytes ts0.entries).length →
      h.WriteErr file.name ((fs1.dataOf file.ino).length + k) = none := by
    intro k hk
    rw [hdata1]
    simpa using hwrite k hk
  have hloop := extractLoop_of_no_fault h file ts0.entries hentries ts0.final fs1 _ hnode1 hw1
  rw [hfinal] at hloop
  refine ⟨fs1.appendData file.ino (payloadBytes ts0.entries), ?_, ?_, ?_⟩
  · simp only [extract, htmp, hopen1, hread1, hts, hfinal, hloop]
  · simp [FS.fileAt, hfresh]
  · have hl1 : fs1.lookup file.name = some file.ino := by
      rw [hfs1, hino]; exact lookup_addFile_new fs file.name _ hfresh
    have hn1 : fs1.fileAt file.name
        = some { names := [file.name], data := [], perm := applyUmask 0o600 h.Umask } := by
      rw [hfs1]; exact fileAt_addFile_new fs file.name _ hfresh
    have := fileAt_modifyAt_same fs1 file.name
      (fun n => { n with data := n.data ++ payloadBytes ts0.entries }) (fun n => rfl)
      file.ino _ hn1 hl1
    simp only [FS.appendData, this, Option.map_some', List.nil_append]

theorem writeFrom_of_ok (h : Host) (name : GoString) (off : Nat) (data : GoString)
    (hok : (io.writeFrom h name off data).2 = none) :
    (io.writeFrom h name off data).1 = data := by
  induction data generalizing off with
  | nil => rfl
  | cons b rest ih =>
    unfold io.writeFrom at hok ⊢
    cases hw : h.WriteErr name off with
    | some e => simp [hw] at hok
    | none =>
      simp only [hw] at hok ⊢
      rw [ih (off + 1) hok]

theorem Copy_ok (h : Host) (fs fs2 : FS) (dst : File) (data : GoString)
    (readErr : Option GoError) (n : Nat)
    (hc : io.Copy h fs dst data readErr = (fs2, n, none)) :
    fs2 = fs.appendData dst.ino data ∧ readErr = none := by
  unfold io.Copy at hc
  cases hw : (io.writeFrom h dst.name (fs.dataOf dst.ino).length data).2 with
  | some e => simp [hw] at hc
  | none =>
    have h1 := writeFrom_of_ok h dst.name _ data hw
    simp only [hw, h1, Prod.mk.injEq] at hc
    exact ⟨hc.1.symm, hc.2.2⟩

theorem readAll_of_ok (h : Host) (fs : FS) (f : File) (hr : (os.readAll h fs f).2 = none) :
    (os.readAll h fs f).1 = fs.dataOf f.ino := by
  unfold os.readAll at hr ⊢
  cases hre : h.ReadErr f.name with
  | none => rfl
  | some ne => simp [hre] at hr

theorem Open_ok (h : Host) (fs : FS) (name : GoString) (f : File)
    (ho : os.Open h fs name = (f, none)) : fs.lookup name = some f.ino := by
  unfold os.Open at ho
  cases hoe : h.OpenErr name with
  | some e => simp [hoe] at ho
  | none =>
    cases hl : fs.lookup name with
    | none => simp [hoe, hl] at ho
    | some i =>
      simp only [hoe, hl, Prod.mk.injEq, and_true] at ho
      rw [← ho]

theorem Chmod_ok (h : Host) (fs fs2 : FS) (f : File) (mode : Nat)
    (hc : os.Chmod h fs f mode = (fs2, none)) : fs2 = fs.setPerm f.ino mode := by
  unfold os.Chmod at hc
  cases hce : h.ChmodErr f.name with
  | some e => simp [hce] at hc
  | none =>
    simp only [hce, Prod.mk.injEq, and_true] at hc
    exact hc.symm

theorem dataOf_of_fileAt (fs : FS) (p : GoString) (i : Nat) (node : FileNode)
    (hl : fs.lookup p = some i) (hn : fs.fileAt p = some node) : fs.dataOf i = node.data := by
  simp only [FS.fileAt, hl, Option.some_bind] at hn
  simp [FS.dataOf, hn]

/-- After a successful `os.Create(name)` the path names an empty file, which
is the file the returned handle refers to, and every file that is not the one
`name` named before is unchanged and distinct from it. -/
theorem Create_ok (h : Host) (fs fs1 : FS) (name : GoString) (out : File)
    (hc : os.Create h fs name = (fs1, out, none)) :
    fs1.lookup name = some out.ino ∧
    (∃ nd, fs1.fileAt name = some nd ∧ nd.data = []) ∧
    (∀ p node, fs.fileAt p = some node → fs.lookup p ≠ fs.lookup name →
      fs1.fileAt p = some node ∧ fs1.lookup p ≠ some out.ino) := by
  unfold os.Create at hc
  cases hce : h.CreateErr name with
  | some e => simp [hce] at hc
  | none =>
    cases hl : fs.lookup name with
    | some j =>
      simp only [hce, hl, Prod.mk.injEq, and_true] at hc
      obtain ⟨hfs1, hout⟩ := hc
      subst hfs1
      subst hout
      have hj : j < fs.files.length := lookupIn_lt name fs.files j hl
      obtain ⟨nd, hnd⟩ : ∃ nd, fs.fileAt name = some nd := by
        refine ⟨fs.files[j], ?_⟩
        simp [FS.fileAt, hl, List.getElem?_eq_getElem hj]
      refine ⟨?_, ⟨_, fileAt_modifyAt_same fs name (fun n => { n with data := [] })
          (fun n => rfl) j nd hnd hl, rfl⟩, ?_⟩
      · exact (lookup_modifyAt fs name (fun n => { n with data := [] }) (fun n => rfl) j).trans hl
      · intro p node hp hne
        constructor
        · exact (fileAt_modifyAt_other fs p (fun n => { n with data := [] }) (fun n => rfl) j hne).trans hp
        · rw [FS.truncate, lookup_modifyAt fs p (fun n => { n with data := [] }) (fun n => rfl) j]
          exact hne
    | none =>
      simp only [hce, hl, Prod.mk.injEq, and_true] at hc
      obtain ⟨hfs1, hout⟩ := hc
      subst hfs1
      subst hout
      refine ⟨lookup_addFile_new fs name _ hl, ⟨_, fileAt_addFile_new fs name _ hl, rfl⟩, ?_⟩
      intro p node hp _
      refine ⟨fileAt_addFile_of_some fs p name _ node hp, ?_⟩
      cases hlp : fs.lookup p with
      | none => simp [FS.fileAt, hlp] at hp
      | some i =>
        have hi : i < fs.files.length := lookupIn_lt p fs.files i hlp
        rw [lookup_addFile_of_some fs p name _ i hlp]
        simp only [ne_eq, Option.some.injEq]
        omega

/-- C4, amended: when `newBinaryPath` names a readable file with content `D`
that is not the destination file itself, and `installBinary` returns no
error, the destination (the path `absExePath` resolves the invocation
reference to) names a file with content exactly `D` and mode 0755. -/
theorem installBinary_installs_source (h : Host) (fs fs2 : FS) (src dest D : GoString)
    (node : FileNode)
    (hdest : absExePath h h.Args0 = .returns (dest, none))
    (hsrc : fs.fileAt src = some node) (hD : node.data = D)
    (hdistinct : fs.lookup src ≠ fs.lookup dest)
    (hok : installBinary h fs src = .returns (fs2, none)) :
    (fs2.fileAt dest).map (fun n => (n.data, n.perm)) = some (D, 0o755) := by
  unfold installBinary at hok
  rw [hdest] at hok
  simp only at hok
  rcases hcr : os.Create h fs dest with ⟨fs1, out, _ | e1⟩
  swap
  · rw [hcr] at hok; simp at hok
  rw [hcr] at hok
  simp only at hok
  obtain ⟨hl1, ⟨nd, hnd, hempty⟩, hkeep⟩ := Create_ok h fs fs1 dest out hcr
  obtain ⟨hsrc1, hne1⟩ := hkeep src node hsrc hdistinct
  rcases hch : os.Chmod h fs1 out 0o755 with ⟨fs3, _ | e2⟩
  swap
  · rw [hch] at hok; simp at hok
  rw [hch] at hok
  simp only at hok
  have hfs3 := Chmod_ok h fs1 fs3 out _ hch
  rcases hop : os.Open h fs3 src with ⟨inp, _ | e3⟩
  swap
  · rw [hop] at hok; simp at hok
  rw [hop] at hok
  simp only at hok
  have hl3 := Open_ok h fs3 src inp hop
  rcases hcp : io.Copy h fs3 out (os.readAll h fs3 inp).1 (os.readAll h fs3 inp).2
    with ⟨fs4, n, err⟩
  rw [hcp] at hok
  simp only [Run.returns.injEq, Prod.mk.injEq] at hok
  obtain ⟨hfs4, herr⟩ := hok
  subst herr
  subst hfs4
  obtain ⟨hfs4, hrd⟩ := Copy_ok h fs3 fs4 out _ _ n hcp
  have hdata := readAll_of_ok h fs3 inp hrd
  -- the source file is untouched by truncation and chmod of the destination
  have hsrc3 : fs3.fileAt src = some node := by
    rw [hfs3, FS.setPerm]
    exact (fileAt_modifyAt_other fs1 src (fun n => { n with perm := 0o755 }) (fun n => rfl) out.ino hne1).trans hsrc1
  have hD3 : fs3.dataOf inp.ino = D := by
    rw [dataOf_of_fileAt fs3 src inp.ino node hl3 hsrc3, hD]
  -- the destination after chmod and copy
  have hnd3 : fs3.fileAt dest = some { nd with perm := 0o755 } := by
    rw [hfs3, FS.setPerm]
    exact fileAt_modifyAt_same fs1 dest (fun n => { n with perm := 0o755 }) (fun n => rfl) out.ino nd hnd hl1
  have hl3d : fs3.lookup dest = some out.ino := by
    rw [hfs3, FS.setPerm]
    exact (lookup_modifyAt fs1 dest (fun n => { n with perm := 0o755 }) (fun n => rfl) out.ino).trans hl1
  rw [hfs4, hdata, hD3, FS.appendData,
    fileAt_modifyAt_same fs3 dest (fun n => { n with data := n.data ++ D }) (fun n => rfl)
      out.ino _ hnd3 hl3d]
  simp [hempty]


/-- The amended statement for `extract` on the example archive and a host
whose disk is full only after a thousand bytes: the directory entry and the
two files with bodies `"abc"` and `"de"` give a fresh temporary file with
content `"abcde"`. -/
theorem extract_concatenates_payload_witness :
    decodeArchive hostFaultLater fsArchive (str "/tmp/git-hooks.tar.gz") = .ok payloadArchive ∧
    decodesCleanly (decodeArchive hostFaultLater fsArchive (str "/tmp/git-hooks.tar.gz")) = true ∧
    ioutil.TempFile hostFaultLater fsArchive hostFaultLater.TempDir exampleNAME
      = (fsArchive.addFile (str "/tmp/git-hooks123456") 0o600,
          ⟨str "/tmp/git-hooks123456", 1⟩, none) ∧
    (∀ off, off < (payloadBytes payloadArchive.entries).length →
      hostFaultLater.WriteErr (str "/tmp/git-hooks123456") off = none) ∧
    hostFaultLater.WriteErr (str "/tmp/git-hooks123456") 1000 ≠ none ∧
    payloadBytes payloadArchive.entries = str "abcde" ∧
    ∃ fs2, extract hostFaultLater exampleNAME fsArchive (str "/tmp/git-hooks.tar.gz")
        = (fs2, str "/tmp/git-hooks123456", none) ∧
      fsArchive.fileAt (str "/tmp/git-hooks123456") = none ∧
      (fs2.fileAt (str "/tmp/git-hooks123456")).map (fun n => n.data)
        = some (payloadBytes payloadArchive.entries) :=
  have hlen : (payloadBytes payloadArchive.entries).length = 5 := by decide
  have hw : ∀ off, off < (payloadBytes payloadArchive.entries).length →
      hostFaultLater.WriteErr (str "/tmp/git-hooks123456") off = none := by
    intro off hoff
    rw [hlen] at hoff
    show (if 1000 ≤ off then _ else none) = none
    exact if_neg (by omega)
  ⟨rfl, by decide, by decide, hw, by decide, by decide,
   extract_concatenates_payload hostFaultLater exampleNAME fsArchive
     (str "/tmp/git-hooks.tar.gz")
     (fsArchive.addFile (str "/tmp/git-hooks123456") 0o600) ⟨str "/tmp/git-hooks123456", 1⟩
     payloadArchive rfl (by decide) (by decide) hw⟩

/-- C1, counterexample: the archive decodes without error, yet `extract`
returns an error: on a host that cannot create the temporary file it returns
the empty path and that error, and on a host whose disk is full after three
bytes it returns the path of a partly written file and the write error. -/
theorem extract_nil_error_counterexample :
    decodesCleanly (decodeArchive hostNoTemp fsArchive (str "/tmp/git-hooks.tar.gz")) = true ∧
    extract hostNoTemp exampleNAME fsArchive (str "/tmp/git-hooks.tar.gz")
      = (fsArchive, [], some (.PathError "open" (str "/tmp") .ErrPermission)) ∧
    decodesCleanly (decodeArchive hostDiskFull fsArchive (str "/tmp/git-hooks.tar.gz")) = true ∧
    (extract hostDiskFull exampleNAME fsArchive (str "/tmp/git-hooks.tar.gz")).2
      = (str "/tmp/git-hooks123456",
          some (.PathError "write" (str "/tmp/git-hooks123456") (.Errno 28))) ∧
    ((extract hostDiskFull exampleNAME fsArchive (str "/tmp/git-hooks.tar.gz")).1.fileAt
        (str "/tmp/git-hooks123456")).map (fun n => n.data) = some (str "abc") := by
  decide

theorem installBinary_installs_source_witness :
    absExePath hostHello hostHello.Args0 = .returns (str "/usr/local/bin/git-hooks", none) ∧
    fsInstalled.fileAt (str "/tmp/git-hooks654321")
      = some { names := [str "/tmp/git-hooks654321"], data := str "new binary", perm := 0o600 } ∧
    fsInstalled.lookup (str "/tmp/git-hooks654321")
      ≠ fsInstalled.lookup (str "/usr/local/bin/git-hooks") ∧
    installBinary hostHello fsInstalled (str "/tmp/git-hooks654321")
      = .returns
          ({ files :=
              [{ names := [str "/usr/local/bin/git-hooks"], data := str "new binary",
                 perm := 0o755 },
               { names := [str "/tmp/git-hooks654321"], data := str "new binary",
                 perm := 0o600 }] }, none) ∧
    ((FS.mk
        [{ names := [str "/usr/local/bin/git-hooks"], data := str "new binary", perm := 0o755 },
         { names := [str "/tmp/git-hooks654321"], data := str "new binary", perm := 0o600 }]).fileAt
      (str "/usr/local/bin/git-hooks")).map (fun n => (n.data, n.perm))
      = some (str "new binary", 0o755) :=
  ⟨by decide, by decide, by decide, by decide,
   installBinary_installs_source hostHello fsInstalled _ (str "/tmp/git-hooks654321")
     (str "/usr/local/bin/git-hooks") (str "new binary")
     { names := [str "/tmp/git-hooks654321"], data := str "new binary", perm := 0o600 }
     (by decide) (by decide) rfl (by decide) (by decide)⟩

/-- C4, counterexample: the source path names the destination file itself, a
readable file with content `"old"`; `installBinary` returns no error, and the
destination then has empty content (mode 0755), not the content `"old"`. -/
theorem installBinary_same_file_counterexample :
    absExePath hostHello hostHello.Args0 = .returns (str "/usr/local/bin/git-hooks", none) ∧
    (fsInstalled.fileAt (str "/usr/local/bin/git-hooks")).map (fun n => n.data)
      = some (str "old") ∧
    installBinary hostHello fsInstalled (str "/usr/local/bin/git-hooks")
      = .returns
          ({ files :=
              [{ names := [str "/usr/local/bin/git-hooks"], data := [], perm := 0o755 },
               { names := [str "/tmp/git-hooks654321"], data := str "new binary",
                 perm := 0o600 }] }, none) ∧
    (([] : GoString), 0o755) ≠ (str "old", 0o755) := by
  decide

end GitHooks
